import Mathlib

/-!
Verification of the retrieval subsystem of the electrical-inspection
compliance checker: the text chunker (`backend/rag/pdf_processor.py`),
the vision-response detection layer (`backend/vision/detection_parser.py`),
the numpy vector store (`HF_UPLOAD/backend/rag/vector_store.py`) and the
embeddings generator with its cache (`HF_UPLOAD/backend/rag/embeddings.py`,
`backend/rag/embeddings_cache.py`).

Texts are modelled as `List Char` (Python `str`).  Python regular
expressions are hand-compiled into deterministic character-list matchers
that reproduce the exact backtracking behaviour of the concrete patterns
appearing in the source.  Loops with data-dependent bounds are modelled
with an explicit fuel argument; the top-level entry points pass a fuel
that dominates the number of iterations the Python loop performs.
Embedding vectors are idealised as lists of real numbers (the source uses
Python floats).
-/

set_option maxRecDepth 8000

namespace Insp

/-! ### Python string primitives -/

/-- Python `str.lower`, restricted to ASCII plus the accented letters used by
the Spanish patterns of this code base. -/
def pyToLower (c : Char) : Char :=
  if c = 'Á' then 'á' else if c = 'É' then 'é' else if c = 'Í' then 'í'
  else if c = 'Ó' then 'ó' else if c = 'Ú' then 'ú' else if c = 'Ñ' then 'ñ'
  else if c = 'Ü' then 'ü' else c.toLower

def pyLower (l : List Char) : List Char := l.map pyToLower

/-- Python `\s` / `str.strip` whitespace (the ASCII whitespace class). -/
def isPySpace (c : Char) : Bool :=
  c = ' ' || c = '\t' || c = '\n' || c = '\r' || c = '\x0b' || c = '\x0c'

def dropTrailing (p : Char → Bool) (l : List Char) : List Char :=
  (l.reverse.dropWhile p).reverse

/-- Python `str.strip()`. -/
def pyStrip (l : List Char) : List Char :=
  dropTrailing isPySpace (l.dropWhile isPySpace)

/-- Python `str.split('\n')`. -/
def splitNl : List Char → List (List Char)
  | [] => [[]]
  | c :: rest =>
    match splitNl rest with
    | [] => [[c]]
    | a :: as => if c = '\n' then [] :: a :: as else (c :: a) :: as

/-- Python `needle in hay` on strings (substring containment). -/
def containsSub (needle : List Char) : List Char → Bool
  | [] => needle.isEmpty
  | h :: t => needle.isPrefixOf (h :: t) || containsSub needle t

/-- The `l` occurs as a contiguous segment of `t`. -/
def SubSeg (l t : List Char) : Prop := ∃ u v, t = u ++ l ++ v

/-! ### Chunker: `PDFProcessor.chunk_text` (`backend/rag/pdf_processor.py`).

`start` is carried as an integer because Python's `end - overlap` can go
negative, and negative values behave differently under slicing. -/

/-- Normalise a Python slice index against a string of length `len`. -/
def pyIdx (len : Nat) (i : Int) : Nat :=
  if i < 0 then (max 0 ((len : Int) + i)).toNat else min i.toNat len

/-- Python `text[s:e]`. -/
def pySlice (text : List Char) (s e : Int) : List Char :=
  let a := pyIdx text.length s
  let b := pyIdx text.length e
  (text.drop a).take (b - a)

/-- Python `str.rfind(c)`: last index of `c`, `-1` when absent. -/
def lastIdxOf (c : Char) : List Char → Int
  | [] => -1
  | x :: xs =>
    let r := lastIdxOf c xs
    if r ≥ 0 then r + 1 else if x = c then 0 else -1

/-- The `while start < text_length` loop of `chunk_text`, with fuel.
Mirrors: window `text[start:start+chunk_size]`, backward search for the last
`.`/newline, truncation when the break point lies past half the window,
`start = end - overlap`. -/
def chunk_loop (text : List Char) (cs ov : Nat) : Nat → Int → Option (List (List Char))
  | fuel, start =>
    if (text.length : Int) ≤ start then some []
    else
      match fuel with
      | 0 => none
      | f + 1 =>
        let e0 : Int := start + (cs : Int)
        let chunk0 := pySlice text start e0
        let bp : Int := max (lastIdxOf '.' chunk0) (lastIdxOf '\n' chunk0)
        let trunc : Bool := e0 < (text.length : Int) && 2 * bp > (cs : Int)
        let chunk1 := if trunc then chunk0.take (bp + 1).toNat else chunk0
        let e1 : Int := if trunc then start + bp + 1 else e0
        (chunk_loop text cs ov f (e1 - (ov : Int))).map (fun rest => pyStrip chunk1 :: rest)

/-- The `chunk_text` run with enough fuel for any terminating execution
(the loop advances `start` by at least one per iteration whenever it
terminates at all). -/
def chunk_text (text : List Char) (cs ov : Nat) : Option (List (List Char)) :=
  chunk_loop text cs ov (text.length + 1) 0

/-- The Python loop terminates on this input: some fuel completes it. -/
def chunk_terminates (text : List Char) (cs ov : Nat) : Prop :=
  ∃ fuel, (chunk_loop text cs ov fuel 0).isSome

/-! ### Detection layer (`backend/vision/detection_parser.py`)

Only the slice of `DetectionParser` that produces the `no_conformidades`
field is embedded (the other sections of `_extract_sections` are computed
by independent regexes and never feed into it).  Each concrete Python
regex is hand-compiled to a deterministic matcher; where the regex engine
would backtrack, the matcher enumerates the same alternatives in the same
order. -/

/-- A parsed non-conformity (`{'description': …, 'article': …, 'severity': …}`). -/
structure NC where
  description : List Char
  article : Option (List Char)
  severity : String
deriving DecidableEq, Repr

/-- The `critical_keywords` of `_extract_sections`. -/
def critical_keywords : List (List Char) :=
  ["riesgo".toList, "peligro".toList, "negligencia".toList, "deficiente".toList,
   "incumpl".toList, "violación".toList, "no conforme".toList, "incorrecta".toList,
   "inadecuada".toList, "ausencia".toList, "falta".toList, "sin".toList,
   "expuesto".toList, "daño".toList, "corrosión".toList]

def has_critical_keywords (text : List Char) : Bool :=
  critical_keywords.any (fun k => containsSub k (pyLower text))

/-- Case-insensitive literal matcher: consume `pat` (given lower-case),
return the rest of the input. -/
def litCi : List Char → List Char → Option (List Char)
  | [], s => some s
  | _ :: _, [] => none
  | p :: ps, c :: cs => if pyToLower c = pyToLower p then litCi ps cs else none

/-- The `\s+` followed by nothing the whitespace could satisfy: greedy run. -/
def wsPlus (s : List Char) : Option (List Char) :=
  match s with
  | c :: cs => if isPySpace c then some ((c :: cs).dropWhile isPySpace) else none
  | [] => none

def leadCount (c : Char) : List Char → Nat
  | [] => 0
  | x :: xs => if x = c then leadCount c xs + 1 else 0

/-- The `(?:PRE\s*)?` for a literal `PRE` whose first character cannot start the
continuation (so the regex's empty alternative never rescues a failed
non-empty one). -/
def skipOpt (pre : List Char) (s : List Char) : List Char :=
  if pre.isPrefixOf s then (s.drop pre.length).dropWhile isPySpace else s

def warnChars : List Char := [Char.ofNat 0x26A0, Char.ofNat 0xFE0F]

/-- The `S?` directly before the capture group: the capture always succeeds, so
the greedy optional simply consumes an `s` when present. -/
def optS (s : List Char) : List Char :=
  match s with
  | c :: cs => if pyToLower c = 's' then cs else c :: cs
  | [] => []

/-- The `S?\s+`: greedy optional `s`, backtracking into the mandatory whitespace. -/
def optS_wsPlus (s : List Char) : Option (List Char) :=
  match s with
  | c :: cs =>
    if pyToLower c = 's' then
      match wsPlus cs with
      | some r => some r
      | none => wsPlus (c :: cs)
    else wsPlus (c :: cs)
  | [] => none

/-- Heading matcher for the first two `nonconf_patterns`
(`(##|###)\s*(?:⚠️\s*)?NO\s+CONFORMIDADES?\s+DETECTADAS?`), anchored at the
current position; returns the suffix where the capture `(.*?)` starts. -/
def mNCdet (hashes : List Char) (s : List Char) : Option (List Char) :=
  (litCi hashes s).bind fun r =>
  let r1 := skipOpt warnChars (r.dropWhile isPySpace)
  (litCi "no".toList r1).bind fun r2 =>
  (wsPlus r2).bind fun r3 =>
  (litCi "conformidade".toList r3).bind fun r4 =>
  (optS_wsPlus r4).bind fun r5 =>
  (litCi "detectada".toList r5).bind fun r6 =>
  some (optS r6)

/-- Heading matcher for the third pattern `##\s*No\s+Conformidades?`. -/
def mNC3 (s : List Char) : Option (List Char) :=
  (litCi "##".toList s).bind fun r =>
  let r1 := r.dropWhile isPySpace
  (litCi "no".toList r1).bind fun r2 =>
  (wsPlus r2).bind fun r3 =>
  (litCi "conformidade".toList r3).bind fun r4 =>
  some (optS r4)

/-- The `re.search`: try the anchored matcher at every position, left to right. -/
def findFirst (m : List Char → Option (List Char)) : List Char → Option (List Char)
  | [] => m []
  | c :: cs =>
    match m (c :: cs) with
    | some r => some r
    | none => findFirst m cs

/-- The lazy capture `(.*?)(?=##|$)` with `re.DOTALL` and no `re.MULTILINE`:
content up to the first `##`, the end of the string, or the position just
before a final newline. -/
def contentUntil : List Char → List Char
  | [] => []
  | c :: cs =>
    if c = '\n' ∧ cs = [] then []
    else if c = '#' ∧ cs.head? = some '#' then []
    else c :: contentUntil cs

/-- The `\*{0,2}` immediately followed by `(\d+)`: consume at most two stars,
then require a digit (star characters are not digits, so the greedy
quantifier is deterministic here). -/
def starsThenDigits (l : List Char) : Option (List Char) :=
  let k := leadCount '*' l
  if k ≤ 2 then
    match l.drop k with
    | c :: cs => if c.isDigit then some (c :: cs) else none
    | [] => none
  else none

/-- The `(.+?)\*{0,2}\s*$` on a stripped line (so the `\s*` is empty): the lazy
group is everything except at most two trailing stars, but never empty. -/
def lazyGroupStar2 (r : List Char) : Option (List Char) :=
  if r.isEmpty then none
  else
    let t := min 2 (leadCount '*' r.reverse)
    some (r.take (max (r.length - t) 1))

/-- First numbered pattern `^\s*\*{0,2}(\d+)\.\s*(.+?)\*{0,2}\s*$`;
returns group 2. -/
def pat1Match (line : List Char) : Option (List Char) :=
  (starsThenDigits (line.dropWhile isPySpace)).bind fun r =>
  match r.dropWhile (·.isDigit) with
  | '.' :: r2 => lazyGroupStar2 (r2.dropWhile isPySpace)
  | _ => none

/-- Greedy `\*{0,2}` before a lazy group: try two stars, then one, then none. -/
def tryStarDrop : Nat → List Char → Option (List Char)
  | 0, r => lazyGroupStar2 r
  | k + 1, r =>
    match lazyGroupStar2 (r.drop (k + 1)) with
    | some g => some g
    | none => tryStarDrop k r

/-- Second numbered pattern `^\s*(\d+)\.\s*\*{0,2}(.+?)\*{0,2}\s*$`;
returns group 2. -/
def pat2Match (line : List Char) : Option (List Char) :=
  let l := line.dropWhile isPySpace
  match l with
  | c :: _ =>
    if c.isDigit then
      match l.dropWhile (·.isDigit) with
      | '.' :: r2 =>
        let r3 := r2.dropWhile isPySpace
        tryStarDrop (min 2 (leadCount '*' r3)) r3
      | _ => none
    else none
  | [] => none

/-- The `numbered_patterns` cascade of `_extract_non_conformities`: first
matching pattern wins. -/
def matchNumberedTitle (line : List Char) : Option (List Char) :=
  match pat1Match line with
  | some g => some g
  | none => pat2Match line

/-- The `re.sub(r'\*+', '', s)`. -/
def removeStars (l : List Char) : List Char := l.filter (fun c => c ≠ '*')

/-- The `re.match(r'^\s*\*{0,2}\d+\.', line)` used as the break test. -/
def isNumberedStart (line : List Char) : Bool :=
  match starsThenDigits (line.dropWhile isPySpace) with
  | some r =>
    match r.dropWhile (·.isDigit) with
    | '.' :: _ => true
    | _ => false
  | none => false

/-- The `\s*(.+)` with the backtracking the greedy `\s*` performs when the
mandatory group would otherwise be empty. -/
def descTail (r1 : List Char) : Option (List Char) :=
  let r2 := r1.dropWhile isPySpace
  if r2.isEmpty then
    match r1.reverse with
    | c :: _ => some [c]
    | [] => none
  else some r2

def tryDesc : Nat → List Char → Option (List Char)
  | 0, r => descTail r
  | k + 1, r =>
    match descTail (r.drop (k + 1)) with
    | some g => some g
    | none => tryDesc k r

/-- The `\*{0,2}Descripción:\*{0,2}\s*(.+)` anchored at the current position.
The leading `\*{0,2}` only shifts the match position, never the captured
group, so the matcher anchors at the literal. -/
def descAt (s : List Char) : Option (List Char) :=
  (litCi "descripción:".toList s).bind fun r =>
  tryDesc (min 2 (leadCount '*' r)) r

def descSearch : List Char → Option (List Char)
  | [] => none
  | c :: cs =>
    match descAt (c :: cs) with
    | some g => some g
    | none => descSearch cs

/-- The `(?:[.-]\d+)*`, greedy; no backtracking is needed because the characters
that may follow a successful repetition (`:` or nothing) can never begin
one. -/
def numExtF : Nat → List Char → List Char × List Char
  | 0, s => ([], s)
  | f + 1, s =>
    match s with
    | c :: rest =>
      if c = '.' ∨ c = '-' then
        match rest with
        | d :: _ =>
          if d.isDigit then
            let ds := rest.takeWhile (·.isDigit)
            let r := rest.dropWhile (·.isDigit)
            let (ext, r') := numExtF f r
            (c :: (ds ++ ext), r')
          else ([], s)
        | [] => ([], s)
      else ([], s)
    | [] => ([], s)

/-- The `(\d+(?:[.-]\d+)*)`: the article-number group; returns (group, rest). -/
def matchNumber (s : List Char) : Option (List Char × List Char) :=
  match s.takeWhile (·.isDigit), s.dropWhile (·.isDigit) with
  | [], _ => none
  | d, r =>
    let (ext, r') := numExtF s.length r
    some (d ++ ext, r')

/-- Article pattern 1: `\*\s*\*{0,2}(\d+(?:[.-]\d+)*)\*{0,2}:`, anchored. -/
def a1At (s : List Char) : Option (List Char) :=
  match s with
  | '*' :: r =>
    (starsThenDigits (r.dropWhile isPySpace)).bind fun r2 =>
    (matchNumber r2).bind fun p =>
    let t := leadCount '*' p.2
    if t ≤ 2 then
      match p.2.drop t with
      | ':' :: _ => some p.1
      | _ => none
    else none
  | _ => none

/-- Article pattern 2: `Art(?:ículo)?\.\s*(\d+(?:[.-]\d+)*)`, anchored; the
optional `ículo` is greedy with backtracking. -/
def a2At (s : List Char) : Option (List Char) :=
  (litCi "art".toList s).bind fun r =>
  let attempt := fun (r' : List Char) =>
    match r' with
    | '.' :: r2 => (matchNumber (r2.dropWhile isPySpace)).map (·.1)
    | _ => none
  match litCi "ículo".toList r with
  | some r2 =>
    (match attempt r2 with
     | some n => some n
     | none => attempt r)
  | none => attempt r

/-- Article pattern 3: `Artículo\s+(\d+(?:[.-]\d+)*)`, anchored. -/
def a3At (s : List Char) : Option (List Char) :=
  (litCi "artículo".toList s).bind fun r =>
  (wsPlus r).bind fun r2 =>
  (matchNumber r2).map (·.1)

/-- Article pattern 4: `^(\d+(?:[.-]\d+)*):` (anchored at the line start
because `re.search` is used without `re.MULTILINE`). -/
def a4Line (line : List Char) : Option (List Char) :=
  (matchNumber line).bind fun p =>
  match p.2 with
  | ':' :: _ => some p.1
  | _ => none

/-- The `re.search` of an anchored matcher returning a captured group. -/
def searchA (m : List Char → Option (List Char)) : List Char → Option (List Char)
  | [] => m []
  | c :: cs =>
    match m (c :: cs) with
    | some n => some n
    | none => searchA m cs

/-- The ordered `article_patterns` cascade on one stripped line. -/
def tryArticlePatterns (sl : List Char) : Option (List Char) :=
  match searchA a1At sl with
  | some n => some n
  | none =>
    match searchA a2At sl with
    | some n => some n
    | none =>
      match searchA a3At sl with
      | some n => some n
      | none => a4Line sl

/-- The `(ALTO|MEDIO|BAJO)` mapped through the `risk_level` conditional. -/
def riskKw (s : List Char) : Option String :=
  match litCi "alto".toList s with
  | some _ => some "high"
  | none =>
    match litCi "medio".toList s with
    | some _ => some "medium"
    | none =>
      match litCi "bajo".toList s with
      | some _ => some "low"
      | none => none

/-- The `\*{0,2}Nivel\s+de\s+Riesgo:\*{0,2}\s*\*{0,2}(ALTO|MEDIO|BAJO)` anchored
at the `Nivel` literal (the leading optional stars only shift the match
position); the trailing star/space quantifiers are deterministic because
the keyword's first letter is neither a star nor whitespace. -/
def riskAt (s : List Char) : Option String :=
  (litCi "nivel".toList s).bind fun r =>
  (wsPlus r).bind fun r1 =>
  (litCi "de".toList r1).bind fun r2 =>
  (wsPlus r2).bind fun r3 =>
  (litCi "riesgo:".toList r3).bind fun r4 =>
  let r5 := r4.drop (min 2 (leadCount '*' r4))
  let r6 := r5.dropWhile isPySpace
  let r7 := r6.drop (min 2 (leadCount '*' r6))
  riskKw r7

def riskSearch : List Char → Option String
  | [] => none
  | c :: cs =>
    match riskAt (c :: cs) with
    | some v => some v
    | none => riskSearch cs

/-- The inner article scan `for search_idx in range(i + 1, search_end)`,
with its own break at the next numbered item. -/
def scanArtGo (lines : List (List Char)) : Nat → Nat → Option (List Char)
  | 0, _ => none
  | f + 1, idx =>
    let sl := pyStrip (lines.getD idx [])
    if isNumberedStart sl then none
    else
      match tryArticlePatterns sl with
      | some a => some a
      | none => scanArtGo lines f (idx + 1)

structure InnerRes where
  desc : List Char
  art : Option (List Char)
  sev : String
  jEnd : Nat

/-- The `while j < len(lines)` sub-item loop of `_extract_non_conformities`:
stops at the next numbered item or `##` header; per line it may override the
description, recomputes the article from `range(i+1, min(j, len))`, and
overrides the severity on a risk-level match. -/
def inner_loop (lines : List (List Char)) (i : Nat) :
    Nat → Nat → List Char → Option (List Char) → String → InnerRes
  | 0, j, desc, art, sev => ⟨desc, art, sev, j⟩
  | f + 1, j, desc, art, sev =>
    if lines.length ≤ j then ⟨desc, art, sev, j⟩
    else
      let nl := pyStrip (lines.getD j [])
      if isNumberedStart nl ∨ "##".toList.isPrefixOf nl then ⟨desc, art, sev, j⟩
      else
        let desc' :=
          match descSearch nl with
          | some g => removeStars (pyStrip g)
          | none => desc
        let art' := scanArtGo lines (min j lines.length - (i + 1)) (i + 1)
        let sev' :=
          match riskSearch nl with
          | some lvl => lvl
          | none => sev
        inner_loop lines i f (j + 1) desc' art' sev'

/-- The buggy title fallback `(?:Art(?:ículo)?\\.?\s*)(…)` (its `\\` requires
a literal backslash in the text; `.?` is a greedy optional any-character). -/
def bsTail (mnum : List Char → Option (List Char)) (r : List Char) : Option (List Char) :=
  match r with
  | '\\' :: r2 =>
    let attempt := fun (x : List Char) => mnum (x.dropWhile isPySpace)
    (match r2 with
     | c :: r3 =>
       if c ≠ '\n' then
         match attempt r3 with
         | some n => some n
         | none => attempt r2
       else attempt r2
     | [] => attempt r2)
  | _ => none

def bsArtAt (mnum : List Char → Option (List Char)) (s : List Char) : Option (List Char) :=
  (litCi "art".toList s).bind fun r =>
  match litCi "ículo".toList r with
  | some r2 =>
    (match bsTail mnum r2 with
     | some n => some n
     | none => bsTail mnum r)
  | none => bsTail mnum r

def bsArtSearch (mnum : List Char → Option (List Char)) (l : List Char) : Option (List Char) :=
  searchA (bsArtAt mnum) l

/-- The `(\d+(?:\.\d+)?(?:-\d+)?)`: the restricted number shape of the fallback
article pattern in `_extract_sections`. -/
def optSep (sep : Char) (r : List Char) : List Char × List Char :=
  match r with
  | c :: d :: rest =>
    if c = sep ∧ d.isDigit then
      (c :: (d :: rest).takeWhile (·.isDigit), (d :: rest).dropWhile (·.isDigit))
    else ([], c :: d :: rest)
  | _ => ([], r)

def matchNumberShort (s : List Char) : Option (List Char) :=
  match s.takeWhile (·.isDigit), s.dropWhile (·.isDigit) with
  | [], _ => none
  | d, r =>
    let (p1, r1) := optSep '.' r
    let (p2, _) := optSep '-' r1
    some (d ++ p1 ++ p2)

/-- The `while i < len(lines)` outer loop of `_extract_non_conformities`. -/
def outer_loop (lines : List (List Char)) : Nat → Nat → List NC
  | 0, _ => []
  | f + 1, i =>
    if lines.length ≤ i then []
    else
      let line := pyStrip (lines.getD i [])
      if line.isEmpty ∨ line.head? = some '#' then outer_loop lines f (i + 1)
      else
        match matchNumberedTitle line with
        | none => outer_loop lines f (i + 1)
        | some g2 =>
          let ncTitle := removeStars (pyStrip g2)
          if ncTitle.length < 10 then outer_loop lines f (i + 1)
          else
            let res := inner_loop lines i (lines.length + 1) (i + 1) ncTitle none "high"
            let art :=
              match res.art with
              | some a => some a
              | none => bsArtSearch (fun s => (matchNumber s).map (·.1)) ncTitle
            let tail := outer_loop lines f res.jEnd
            if 10 ≤ res.desc.length then ⟨res.desc, art, res.sev⟩ :: tail else tail

def extract_non_conformities (text : List Char) : List NC :=
  let lines := splitNl text
  outer_loop lines (lines.length + 1) 0

/-- The `nonconf_patterns` cascade of `_extract_sections`: first matching
heading pattern supplies the section content. -/
def nonconf_heading_content (text : List Char) : Option (List Char) :=
  match findFirst (mNCdet "###".toList) text with
  | some r => some (contentUntil r)
  | none =>
    match findFirst (mNCdet "##".toList) text with
    | some r => some (contentUntil r)
    | none =>
      match findFirst mNC3 text with
      | some r => some (contentUntil r)
      | none => none

def heading_non_conformities (text : List Char) : List NC :=
  match nonconf_heading_content text with
  | some content => extract_non_conformities content
  | none => []

/-- The `(.+?)(?:\n|$)` at the current position: the rest of the line, consuming
the terminating newline; fails on an empty remainder. -/
def grpToEol (m : List Char) : Option (List Char × List Char) :=
  let run := m.takeWhile (fun c => c ≠ '\n')
  if run.isEmpty then none
  else some (run, (m.drop run.length).drop 1)

/-- The `\*?\*?(.+?)(?:\n|$)`: both optional stars, greedy with backtracking. -/
def itemAfterWs (m : List Char) : Option (List Char × List Char) :=
  match m with
  | '*' :: '*' :: r2 =>
    (match grpToEol r2 with
     | some g => some g
     | none =>
       match grpToEol ('*' :: r2) with
       | some g => some g
       | none => grpToEol ('*' :: '*' :: r2))
  | '*' :: r =>
    (match grpToEol r with
     | some g => some g
     | none => grpToEol ('*' :: r))
  | m' => grpToEol m'

/-- The `\s*\*?\*?(.+?)(?:\n|$)`: the greedy whitespace run, backtracking one
character at a time. -/
def itemTail : List Char → Option (List Char × List Char)
  | [] => none
  | c :: cs =>
    if isPySpace c then
      match itemTail cs with
      | some g => some g
      | none => itemAfterWs (c :: cs)
    else itemAfterWs (c :: cs)

/-- One attempt of `^\s*\d+\.\s*\*?\*?(.+?)(?:\n|$)` at a `^` position. -/
def matchItemAt (m : List Char) : Option (List Char × List Char) :=
  let r := m.dropWhile isPySpace
  match r.takeWhile (·.isDigit), r.dropWhile (·.isDigit) with
  | [], _ => none
  | _, r2 =>
    match r2 with
    | '.' :: r3 => itemTail r3
    | _ => none

/-- The `re.findall` scan with `re.MULTILINE`: `^` anchors at the string start
and after each newline; matches do not overlap. -/
def findItemsGo : Nat → List Char → Bool → List (List Char)
  | 0, _, _ => []
  | f + 1, l, atStart =>
    match l with
    | [] => []
    | c :: cs =>
      if atStart then
        match matchItemAt (c :: cs) with
        | some g => g.1 :: findItemsGo f g.2 true
        | none => findItemsGo f cs (c = '\n')
      else findItemsGo f cs (c = '\n')

def findNumberedItems (text : List Char) : List (List Char) :=
  findItemsGo (text.length + 1) text true

/-- The keyword fallback of `_extract_sections`: first ten numbered lines,
kept when they contain a critical keyword, truncated description, severity
`high`, best-effort article from the (backslash-requiring) inline pattern. -/
def fallback_non_conformities (text : List Char) : List NC :=
  ((findNumberedItems text).take 10).filterMap fun item =>
    if critical_keywords.any (fun k => containsSub k (pyLower item)) then
      some ⟨(pyStrip item).take 200, bsArtSearch matchNumberShort item, "high"⟩
    else none

/-- The `sections['no_conformidades']` as computed by `_extract_sections`. -/
def no_conformidades (text : List Char) : List NC :=
  let ncs := heading_non_conformities text
  let ncs' :=
    if ncs.isEmpty ∧ has_critical_keywords text then fallback_non_conformities text
    else ncs
  ncs'.take 10

/-- The `high_severity_keywords` of `classify_severity`. -/
def high_severity_keywords : List (List Char) :=
  ["peligro".toList, "riesgo".toList, "expuesto".toList, "sin protección".toList,
   "falta de tierra".toList, "conexión suelta".toList, "corto circuito".toList]

/-- The `DetectionParser.classify_severity`: re-classifies every entry in place. -/
def classify_severity : List NC → List NC
  | [] => []
  | nc :: rest =>
    let descL := pyLower nc.description
    let nc' :=
      if high_severity_keywords.any (fun k => containsSub k descL) then
        { nc with severity := "high" }
      else if (match nc.article with | some a => !a.isEmpty | none => false) then
        { nc with severity := "medium" }
      else
        { nc with severity := "low" }
    nc' :: classify_severity rest

/-- Python truthiness of the `article` field (`nc.get('article')`). -/
def articleTruthy (a : Option (List Char)) : Bool :=
  match a with
  | some l => !l.isEmpty
  | none => false

/-- The `non_conformities` field produced by `parse_vision_response`:
the parser result, re-classified by `classify_severity` when non-empty. -/
def parse_vision_non_conformities (text : List Char) : List NC :=
  let parsed := no_conformidades text
  if parsed.isEmpty then parsed else classify_severity parsed

/-! ### Vector store (`HF_UPLOAD/backend/rag/vector_store.py`)

Embedding vectors are idealised as lists of real numbers.  The query
embedding (`generate_query_embedding`, an external model call) enters
`search` as the parameter `qe`. -/

structure Meta where
  norm_id : String
  filename : String
  chunk_index : Nat
  total_chunks : Nat
deriving DecidableEq, Repr, Inhabited

/-- The parallel in-memory arrays of `VectorStore`. -/
structure Store where
  ids : List String
  embeddings : List (List ℝ)
  documents : List String
  metadatas : List Meta

/-- One input document of `add_documents`. -/
structure Doc where
  norm_id : String
  filename : String
  chunks : List String
  embeddings : List (List ℝ)

def chunk_id (norm_id : String) (i : Nat) : String :=
  norm_id ++ "_chunk_" ++ toString i

/-- The `for i, (chunk, embedding) in enumerate(zip(chunks, embeddings))`
loop body: append the four parallel arrays unless the id already exists. -/
def add_chunks (norm_id filename : String) (total : Nat) :
    Store → Nat → List (String × List ℝ) → Store
  | st, _, [] => st
  | st, i, (chunk, emb) :: rest =>
    let cid := chunk_id norm_id i
    let st' :=
      if cid ∈ st.ids then st
      else ⟨st.ids ++ [cid], st.embeddings ++ [emb], st.documents ++ [chunk],
            st.metadatas ++ [⟨norm_id, filename, i, total⟩]⟩
    add_chunks norm_id filename total st' (i + 1) rest

def add_doc (st : Store) (d : Doc) : Store :=
  if d.embeddings.isEmpty then st
  else add_chunks d.norm_id d.filename d.chunks.length st 0 (d.chunks.zip d.embeddings)

/-- The `VectorStore.add_documents` (the `_save` call is a persistence side
effect outside the data model). -/
def add_documents (st : Store) (docs : List Doc) : Store :=
  docs.foldl add_doc st

noncomputable def dotR (a b : List ℝ) : ℝ := (List.zipWith (· * ·) a b).sum

/-- The `np.linalg.norm`: Euclidean norm. -/
noncomputable def normR (v : List ℝ) : ℝ := Real.sqrt ((v.map (fun x => x * x)).sum)

/-- The `similarities = dot / (norm(A) * norm(B) + 1e-9)`. -/
noncomputable def cosineSim (v q : List ℝ) : ℝ :=
  dotR v q / (normR v * normR q + 1 / 1000000000)

structure SearchResult where
  id : String
  content : String
  metadata : Meta
  distance : ℝ

noncomputable def simAt (st : Store) (qe : List ℝ) (i : Nat) : ℝ :=
  cosineSim (st.embeddings.getD i []) qe

/-- Comparison of `filtered_similarities.sort(key=lambda x: x[1],
reverse=True)`: `x` may stay before `y` iff its similarity is ≥. -/
noncomputable def simGe (x y : Nat × ℝ) : Bool := decide (y.2 ≤ x.2)

noncomputable def mkResult (st : Store) (p : Nat × ℝ) : SearchResult :=
  ⟨st.ids.getD p.1 "", st.documents.getD p.1 "", st.metadatas.getD p.1 default, 1 - p.2⟩

/-- The `filtered_indices`: all of `range(len(self.ids))`, or the metadata
filter; Python's `if norm_filter:` treats `None` and `""` as no filter. -/
def filtered_indices (st : Store) (filt : Option String) : List Nat :=
  match filt with
  | some f =>
    if f.isEmpty then List.range st.ids.length
    else (List.range st.metadatas.length).filter
      (fun i => (st.metadatas.getD i default).norm_id = f)
  | none => List.range st.ids.length

/-- Shape guard: `np.dot` (and the construction of a ragged `np.array`)
raise when the stored vectors and the query embedding disagree in length. -/
def dims_ok (st : Store) (qe : List ℝ) : Bool :=
  st.embeddings.all (fun v => v.length = qe.length)

/-- The body of the `try:` block of `VectorStore.search`. -/
noncomputable def search_inner (st : Store) (qe : List ℝ) (n : Nat)
    (filt : Option String) : Except Unit (List SearchResult) :=
  if dims_ok st qe then
    let idxs := filtered_indices st filt
    if idxs.isEmpty then .ok []
    else
      let pairs := idxs.map (fun i => (i, simAt st qe i))
      let sorted := pairs.mergeSort simGe
      .ok ((sorted.take n).map (mkResult st))
  else .error ()

/-- The `VectorStore.search`: empty store short-circuits; any exception from
the body is caught (`except Exception: … return []`). -/
noncomputable def search (st : Store) (qe : List ℝ) (n : Nat)
    (filt : Option String) : List SearchResult :=
  if st.embeddings.isEmpty then []
  else
    match search_inner st qe n filt with
    | .ok r => r
    | .error _ => []

/-! ### Embeddings cache (`backend/rag/embeddings_cache.py`) and generator
(`HF_UPLOAD/backend/rag/embeddings.py`)

`_get_cache_key` hashes `f"{norm_id}_{chunk_index}_{text[:100]}"` with md5;
the hash is idealised as injective, so the cache is keyed by the triple
`(norm_id, chunk_index, text[:100])` itself.  The external embedding
service (`generate_embeddings`) is modelled as a per-text function
`embedFn` applied to `texts_to_embed`; the rate-limit retry branch repeats
the identical computation and is collapsed. -/

abbrev CKey := String × Nat × String

def cache_key (text norm : String) (idx : Nat) : CKey := (norm, idx, text.take 100)

abbrev Cache := List (CKey × List ℝ)

/-- The `EmbeddingsCache.get`. -/
def cache_get (c : Cache) (text norm : String) (idx : Nat) : Option (List ℝ) :=
  (c.find? (fun kv => kv.1 = cache_key text norm idx)).map (·.2)

/-- The `EmbeddingsCache.set` (one record per key; a fresh write shadows). -/
def cache_set (c : Cache) (text norm : String) (idx : Nat) (v : List ℝ) : Cache :=
  (cache_key text norm idx, v) :: c

/-- The `if cached_embedding:` — a missing or empty cached vector is a miss. -/
def cache_hit (c : Cache) (text norm : String) (idx : Nat) : Option (List ℝ) :=
  match cache_get c text norm idx with
  | some v => if v.isEmpty then none else some v
  | none => none

/-- Phase 1 of a batch of `generate_document_embeddings`: cached vectors in
place, `None` placeholders for misses, and the parallel
`texts_to_embed`/`indices_to_embed` lists (paired). -/
def scan_batch (c : Cache) (norm : String) : Nat → List String →
    List (Option (List ℝ)) × List (Nat × String)
  | _, [] => ([], [])
  | j, t :: ts =>
    let rest := scan_batch c norm (j + 1) ts
    match cache_hit c t norm j with
    | some v => (some v :: rest.1, rest.2)
    | none => (none :: rest.1, (j, t) :: rest.2)

/-- Phase 2/3: `new_embeddings = generate_embeddings(texts_to_embed)`
(modelled via `embedFn`) filled back into the placeholders in order.
The final clause is unreachable because the placeholder count equals
`texts_to_embed`'s length. -/
def fill_embeddings (embedFn : String → List ℝ) :
    List (Option (List ℝ)) → List (Nat × String) → List (List ℝ)
  | [], _ => []
  | some v :: rest, te => v :: fill_embeddings embedFn rest te
  | none :: rest, (_, t) :: te => embedFn t :: fill_embeddings embedFn rest te
  | none :: _, [] => []

/-- The `cache.set(batch[j], norm_id, chunk_idx, embedding)` writes of a
batch, in placeholder order. -/
def cache_after (embedFn : String → List ℝ) (c : Cache) (norm : String)
    (te : List (Nat × String)) : Cache :=
  te.foldl (fun acc p => cache_set acc p.2 norm p.1 (embedFn p.2)) c

def process_batch (embedFn : String → List ℝ) (c : Cache) (norm : String)
    (i0 : Nat) (batch : List String) : List (List ℝ) × Cache :=
  let s := scan_batch c norm i0 batch
  (fill_embeddings embedFn s.1 s.2, cache_after embedFn c norm s.2)

/-- The `for i in range(0, len(chunks), batch_size)` with `batch_size = 100`,
extending `all_embeddings` batch by batch. -/
def batches_loop (embedFn : String → List ℝ) (norm : String)
    (chunks : List String) : Nat → Cache → Nat → List (List ℝ) × Cache
  | 0, c, _ => ([], c)
  | f + 1, c, i =>
    if chunks.length ≤ i then ([], c)
    else
      let pb := process_batch embedFn c norm i ((chunks.drop i).take 100)
      let rest := batches_loop embedFn norm chunks f pb.2 (i + 100)
      (pb.1 ++ rest.1, rest.2)

/-- The `generate_document_embeddings` restricted to one document: the value
stored into `doc['embeddings']` together with the final cache state (the
outer `for doc in documents` loop threads the cache through and repeats
this per document). -/
def generate_doc_embeddings (embedFn : String → List ℝ) (c : Cache)
    (norm : String) (chunks : List String) : List (List ℝ) × Cache :=
  batches_loop embedFn norm chunks (chunks.length + 1) c 0

/-- Specification helper: position `i` receives its cached vector on a hit
and `embedFn` of its own text on a miss, judged against one fixed cache. -/
def cache_or_fresh (embedFn : String → List ℝ) (c : Cache) (norm : String) :
    Nat → List String → List (List ℝ)
  | _, [] => []
  | j, t :: ts =>
    (match cache_hit c t norm j with
     | some v => v
     | none => embedFn t) :: cache_or_fresh embedFn c norm (j + 1) ts

end Insp

namespace Insp

/-! ### Lemmas and claim theorems for the chunker -/

theorem chunk_loop_stuck (fuel : Nat) :
    chunk_loop "a".toList 1 1 fuel 0 = none := by
  induction fuel with
  | zero => simp [chunk_loop]
  | succ f ih =>
    rw [chunk_loop]
    norm_num
    simpa [pySlice, pyIdx, lastIdxOf] using ih

/-- Claim C6 (counterexample): with `chunk_size = 1 > 0` and `overlap = 1 ≥ 0`
the loop never terminates on the one-character text `"a"`: the window start
is recomputed as `end - overlap = 0` forever. -/
theorem chunk_text_nontermination : ¬ chunk_terminates "a".toList 1 1 := by
  rintro ⟨fuel, h⟩
  rw [chunk_loop_stuck] at h
  simp at h

theorem chunk_loop_isSome (text : List Char) (cs ov : Nat)
    (hcs : 0 < cs) (hov : 2 * ov ≤ cs) :
    ∀ fuel : Nat, ∀ start : Int, 0 ≤ start → (text.length : Int) - start < fuel →
      (chunk_loop text cs ov fuel start).isSome := by
  intro fuel
  induction fuel with
  | zero =>
    intro start h0 hlt
    rw [chunk_loop]
    have : (text.length : Int) ≤ start := by omega
    simp [this]
  | succ f ih =>
    intro start h0 hlt
    rw [chunk_loop]
    by_cases hend : (text.length : Int) ≤ start
    · simp [hend]
    · simp only [hend, if_false]
      set e0 : Int := start + (cs : Int) with he0
      set chunk0 := pySlice text start e0 with hc0
      set bp : Int := max (lastIdxOf '.' chunk0) (lastIdxOf '\n' chunk0) with hbp
      set trunc : Bool := (decide (e0 < (text.length : Int)) && decide (2 * bp > (cs : Int)))
        with htr
      set e1 : Int := if trunc then start + bp + 1 else e0 with he1
      have hstep : start + 1 ≤ e1 - (ov : Int) ∧ 0 ≤ e1 - (ov : Int) := by
        by_cases ht : trunc = true
        · have hb : 2 * bp > (cs : Int) := by
            have h2 := ht
            rw [htr] at h2
            simp only [Bool.and_eq_true, decide_eq_true_eq] at h2
            exact h2.2
          have : (ov : Int) + 1 ≤ bp := by omega
          constructor <;> [skip; skip] <;> · rw [he1, ht] ; simp ; omega
        · have ht' : trunc = false := by simpa using ht
          have : (ov : Int) + 1 ≤ (cs : Int) := by omega
          constructor <;> · rw [he1, ht'] ; simp ; omega
      have hrec := ih (e1 - (ov : Int)) hstep.2 (by omega)
      rcases Option.isSome_iff_exists.mp hrec with ⟨w, hw⟩
      simp only [hw, Option.map_some]
      rfl

/-- Claim C6, amended: `chunk_text` terminates for every text whenever
`chunk_size > 0` and `2 * overlap ≤ chunk_size` (the original unrestricted
claim fails, see `chunk_text_nontermination`: any `overlap ≥ chunk_size`, and
even some `overlap < chunk_size`, make the window start stop advancing). -/
theorem chunk_text_terminating (text : List Char) (cs ov : Nat)
    (hcs : 0 < cs) (hov : 2 * ov ≤ cs) :
    (chunk_text text cs ov).isSome ∧ chunk_terminates text cs ov := by
  have h := chunk_loop_isSome text cs ov hcs hov (text.length + 1) 0 (by omega) (by omega)
  exact ⟨h, ⟨text.length + 1, h⟩⟩

/-- Witness for `chunk_text_terminating` at `text = "ab."`, `chunk_size = 2`,
`overlap = 1`. -/
theorem chunk_text_terminating_witness :
    (chunk_text "ab.".toList 2 1).isSome = true := by
  have := chunk_text_terminating "ab.".toList 2 1 (by decide) (by decide)
  simpa using this.1

/-! ### Segment (`SubSeg`) plumbing for the parser -/

theorem subseg_nil (t : List Char) : SubSeg [] t := ⟨t, [], by simp⟩

theorem subseg_trans {a b c : List Char} (h1 : SubSeg a b) (h2 : SubSeg b c) :
    SubSeg a c := by
  obtain ⟨u, v, rfl⟩ := h1
  obtain ⟨x, y, rfl⟩ := h2
  exact ⟨x ++ u, v ++ y, by simp⟩

theorem subseg_cons {a t : List Char} (c : Char) (h : SubSeg a t) :
    SubSeg a (c :: t) := by
  obtain ⟨u, v, rfl⟩ := h
  exact ⟨c :: u, v, rfl⟩

theorem subseg_map {a t : List Char} (f : Char → Char) (h : SubSeg a t) :
    SubSeg (a.map f) (t.map f) := by
  obtain ⟨u, v, rfl⟩ := h
  exact ⟨u.map f, v.map f, by simp⟩

theorem dropWhile_suf (p : Char → Bool) :
    ∀ l : List Char, ∃ u, l = u ++ l.dropWhile p := by
  intro l
  induction l with
  | nil => exact ⟨[], rfl⟩
  | cons c cs ih =>
    by_cases h : p c = true
    · obtain ⟨u, hu⟩ := ih
      exact ⟨c :: u, by simp [List.dropWhile_cons, h, ← hu]⟩
    · exact ⟨[], by simp [List.dropWhile_cons, h]⟩

theorem dropTrailing_pre (p : Char → Bool) (l : List Char) :
    ∃ v, l = dropTrailing p l ++ v := by
  obtain ⟨u, hu⟩ := dropWhile_suf p l.reverse
  refine ⟨u.reverse, ?_⟩
  have := congrArg List.reverse hu
  simpa [dropTrailing] using this

theorem pyStrip_subseg (l : List Char) : SubSeg (pyStrip l) l := by
  obtain ⟨u, hu⟩ := dropWhile_suf isPySpace l
  obtain ⟨v, hv⟩ := dropTrailing_pre isPySpace (l.dropWhile isPySpace)
  refine ⟨u, v, ?_⟩
  show l = u ++ dropTrailing isPySpace (l.dropWhile isPySpace) ++ v
  rw [List.append_assoc]
  calc l = u ++ l.dropWhile isPySpace := hu
    _ = _ := congrArg (u ++ ·) hv

theorem contentUntil_pre : ∀ l : List Char, ∃ v, l = contentUntil l ++ v := by
  intro l
  induction l with
  | nil => exact ⟨[], rfl⟩
  | cons c cs ih =>
    rw [contentUntil]
    split
    · exact ⟨c :: cs, rfl⟩
    · split
      · exact ⟨c :: cs, rfl⟩
      · obtain ⟨v, hv⟩ := ih
        refine ⟨v, ?_⟩
        conv_lhs => rw [hv]
        simp

theorem litCi_suf : ∀ (p s r : List Char), litCi p s = some r → ∃ u, s = u ++ r := by
  intro p
  induction p with
  | nil =>
    intro s r h
    simp only [litCi, Option.some.injEq] at h
    exact ⟨[], by simp [h]⟩
  | cons x xs ih =>
    intro s r h
    match s with
    | [] => simp [litCi] at h
    | c :: cs =>
      rw [litCi] at h
      split at h
      · obtain ⟨u, hu⟩ := ih cs r h
        exact ⟨c :: u, by simp [hu]⟩
      · exact absurd h (by simp)

theorem wsPlus_suf {s r : List Char} (h : wsPlus s = some r) : ∃ u, s = u ++ r := by
  match s with
  | [] => exact absurd h (by simp [wsPlus])
  | c :: cs =>
    rw [wsPlus] at h
    split at h
    · obtain ⟨u, hu⟩ := dropWhile_suf isPySpace (c :: cs)
      cases h
      exact ⟨u, hu⟩
    · exact absurd h (by simp)

theorem isPrefixOf_append : ∀ (p s : List Char), p.isPrefixOf s = true →
    s = p ++ s.drop p.length := by
  intro p
  induction p with
  | nil => intro s _; simp
  | cons x xs ih =>
    intro s h
    match s with
    | [] => simp [List.isPrefixOf] at h
    | c :: cs =>
      simp only [List.isPrefixOf, Bool.and_eq_true, beq_iff_eq] at h
      have hd := ih cs h.2
      rw [show x = c from h.1] at *
      show c :: cs = c :: (xs ++ cs.drop xs.length)
      exact congrArg (c :: ·) hd

theorem skipOpt_suf (pre s : List Char) : ∃ u, s = u ++ skipOpt pre s := by
  rw [skipOpt]
  split
  · rename_i h
    obtain ⟨u, hu⟩ := dropWhile_suf isPySpace (s.drop pre.length)
    refine ⟨pre ++ u, ?_⟩
    rw [List.append_assoc, ← hu]
    exact isPrefixOf_append pre s h
  · exact ⟨[], rfl⟩

theorem optS_suf (s : List Char) : ∃ u, s = u ++ optS s := by
  match s with
  | [] => exact ⟨[], rfl⟩
  | c :: cs =>
    rw [optS]
    split
    · exact ⟨[c], rfl⟩
    · exact ⟨[], rfl⟩

theorem optS_wsPlus_suf {s r : List Char} (h : optS_wsPlus s = some r) : ∃ u, s = u ++ r := by
  match s with
  | [] => exact absurd h (by simp [optS_wsPlus])
  | c :: cs =>
    rw [optS_wsPlus] at h
    split at h
    · match hw : wsPlus cs with
      | some r2 =>
        rw [hw] at h
        obtain ⟨u, hu⟩ := wsPlus_suf hw
        cases h
        exact ⟨c :: u, by simp [hu]⟩
      | none =>
        rw [hw] at h
        exact wsPlus_suf h
    · exact wsPlus_suf h

theorem mNCdet_suf {hs s r : List Char} (h : mNCdet hs s = some r) : ∃ u, s = u ++ r := by
  rw [mNCdet] at h
  rcases Option.bind_eq_some.mp h with ⟨r0, h0, h⟩
  rcases Option.bind_eq_some.mp h with ⟨r2, h2, h⟩
  rcases Option.bind_eq_some.mp h with ⟨r3, h3, h⟩
  rcases Option.bind_eq_some.mp h with ⟨r4, h4, h⟩
  rcases Option.bind_eq_some.mp h with ⟨r5, h5, h⟩
  rcases Option.bind_eq_some.mp h with ⟨r6, h6, h⟩
  obtain ⟨u0, hu0⟩ := litCi_suf _ _ _ h0
  obtain ⟨uw, huw⟩ := dropWhile_suf isPySpace r0
  obtain ⟨us, hus⟩ := skipOpt_suf warnChars (r0.dropWhile isPySpace)
  obtain ⟨u2, hu2⟩ := litCi_suf _ _ _ h2
  obtain ⟨u3, hu3⟩ := wsPlus_suf h3
  obtain ⟨u4, hu4⟩ := litCi_suf _ _ _ h4
  obtain ⟨u5, hu5⟩ := optS_wsPlus_suf h5
  obtain ⟨u6, hu6⟩ := litCi_suf _ _ _ h6
  obtain ⟨u7, hu7⟩ := optS_suf r6
  have hr : r = optS r6 := by cases h; rfl
  refine ⟨u0 ++ uw ++ us ++ u2 ++ u3 ++ u4 ++ u5 ++ u6 ++ u7, ?_⟩
  rw [hu0, huw, hus, hu2, hu3, hu4, hu5, hu6, hu7, hr]
  simp

theorem mNC3_suf {s r : List Char} (h : mNC3 s = some r) : ∃ u, s = u ++ r := by
  rw [mNC3] at h
  rcases Option.bind_eq_some.mp h with ⟨r0, h0, h⟩
  rcases Option.bind_eq_some.mp h with ⟨r2, h2, h⟩
  rcases Option.bind_eq_some.mp h with ⟨r3, h3, h⟩
  rcases Option.bind_eq_some.mp h with ⟨r4, h4, h⟩
  obtain ⟨u0, hu0⟩ := litCi_suf _ _ _ h0
  obtain ⟨uw, huw⟩ := dropWhile_suf isPySpace r0
  obtain ⟨u2, hu2⟩ := litCi_suf _ _ _ h2
  obtain ⟨u3, hu3⟩ := wsPlus_suf h3
  obtain ⟨u4, hu4⟩ := litCi_suf _ _ _ h4
  obtain ⟨u7, hu7⟩ := optS_suf r4
  have hr : r = optS r4 := by cases h; rfl
  refine ⟨u0 ++ uw ++ u2 ++ u3 ++ u4 ++ u7, ?_⟩
  rw [hu0, huw, hu2, hu3, hu4, hu7, hr]
  simp

theorem findFirst_spec {m : List Char → Option (List Char)} :
    ∀ {l r : List Char}, findFirst m l = some r →
      ∃ s, (∃ u, l = u ++ s) ∧ m s = some r := by
  intro l
  induction l with
  | nil => intro r h; exact ⟨[], ⟨[], rfl⟩, by simpa [findFirst] using h⟩
  | cons c cs ih =>
    intro r h
    rw [findFirst] at h
    match hm : m (c :: cs) with
    | some r0 =>
      rw [hm] at h
      cases h
      exact ⟨c :: cs, ⟨[], rfl⟩, hm⟩
    | none =>
      rw [hm] at h
      obtain ⟨s, ⟨u, hu⟩, hms⟩ := ih h
      exact ⟨s, ⟨c :: u, by simp [hu]⟩, hms⟩

theorem content_lift {text content s r : List Char}
    (h1 : ∃ u, text = u ++ s) (h2 : ∃ u, s = u ++ r)
    (h3 : content = contentUntil r) : SubSeg content text := by
  obtain ⟨u, rfl⟩ := h1
  obtain ⟨w, rfl⟩ := h2
  obtain ⟨v, hv⟩ := contentUntil_pre r
  subst h3
  refine ⟨u ++ w, v, ?_⟩
  conv_lhs => rw [hv]
  simp

theorem nonconf_content_subseg {text content : List Char}
    (h : nonconf_heading_content text = some content) : SubSeg content text := by
  rw [nonconf_heading_content] at h
  match h1 : findFirst (mNCdet "###".toList) text with
  | some r =>
    rw [h1] at h
    obtain ⟨s, hsu, hm⟩ := findFirst_spec h1
    exact content_lift hsu (mNCdet_suf hm) (by cases h; rfl)
  | none =>
    rw [h1] at h
    match h2 : findFirst (mNCdet "##".toList) text with
    | some r =>
      rw [h2] at h
      obtain ⟨s, hsu, hm⟩ := findFirst_spec h2
      exact content_lift hsu (mNCdet_suf hm) (by cases h; rfl)
    | none =>
      rw [h2] at h
      match h3 : findFirst mNC3 text with
      | some r =>
        rw [h3] at h
        obtain ⟨s, hsu, hm⟩ := findFirst_spec h3
        exact content_lift hsu (mNC3_suf hm) (by cases h; rfl)
      | none => rw [h3] at h; exact absurd h (by simp)

theorem splitNl_struct : ∀ l : List Char,
    ∃ a as, splitNl l = a :: as ∧ (∃ v, l = a ++ v) ∧ ∀ b ∈ as, SubSeg b l := by
  intro l
  induction l with
  | nil => exact ⟨[], [], rfl, ⟨[], rfl⟩, by simp⟩
  | cons c cs ih =>
    obtain ⟨a, as, hs, ⟨v, hv⟩, hm⟩ := ih
    by_cases hc : c = '\n'
    · refine ⟨[], a :: as, ?_, ⟨c :: cs, rfl⟩, ?_⟩
      · rw [splitNl, hs]; simp [hc]
      · intro b hb
        rcases List.mem_cons.mp hb with rfl | hb
        · exact ⟨[c], v, by simp [hv]⟩
        · exact subseg_cons c (hm b hb)
    · refine ⟨c :: a, as, ?_, ⟨v, by simp [hv]⟩, ?_⟩
      · rw [splitNl, hs]; simp [hc]
      · intro b hb
        exact subseg_cons c (hm b hb)

theorem splitNl_subseg {l : List Char} : ∀ b ∈ splitNl l, SubSeg b l := by
  obtain ⟨a, as, hs, ⟨v, hv⟩, hm⟩ := splitNl_struct l
  intro b hb
  rw [hs] at hb
  rcases List.mem_cons.mp hb with rfl | hb
  · exact ⟨[], v, hv⟩
  · exact hm b hb

theorem getD_subseg {ls : List (List Char)} {t : List Char}
    (hall : ∀ b ∈ ls, SubSeg b t) (j : Nat) : SubSeg (ls.getD j []) t := by
  rcases Nat.lt_or_ge j ls.length with hj | hj
  · rw [List.getD_eq_getElem ls [] hj]
    exact hall _ (List.getElem_mem hj)
  · rw [List.getD_eq_default ls [] hj]
    exact subseg_nil t

/-! ### Severity-preservation lemmas for the extraction loops -/

theorem inner_loop_sev (lines : List (List Char)) (i : Nat)
    (H : ∀ j, riskSearch (pyStrip (lines.getD j [])) = none) :
    ∀ fuel j desc art sev, (inner_loop lines i fuel j desc art sev).sev = sev := by
  intro fuel
  induction fuel with
  | zero => intro j desc art sev; rfl
  | succ f ih =>
    intro j desc art sev
    rw [inner_loop]
    split
    · rfl
    · dsimp only
      split
      · rfl
      · rw [H j]
        exact ih (j + 1) _ _ sev

theorem outer_loop_sev (lines : List (List Char))
    (H : ∀ j, riskSearch (pyStrip (lines.getD j [])) = none) :
    ∀ fuel i nc, nc ∈ outer_loop lines fuel i → nc.severity = "high" := by
  intro fuel
  induction fuel with
  | zero => intro i nc h; simp [outer_loop] at h
  | succ f ih =>
    intro i nc h
    rw [outer_loop] at h
    split at h
    · simp at h
    · dsimp only at h
      split at h
      · exact ih _ nc h
      · split at h
        · exact ih _ nc h
        · split at h
          · exact ih _ nc h
          · split at h
            · rcases List.mem_cons.mp h with rfl | h
              · exact inner_loop_sev lines i H _ _ _ _ _
              · exact ih _ nc h
            · exact ih _ nc h

theorem fallback_sev {text : List Char} {nc : NC}
    (h : nc ∈ fallback_non_conformities text) : nc.severity = "high" := by
  rw [fallback_non_conformities] at h
  rcases List.mem_filterMap.mp h with ⟨item, _, heq⟩
  by_cases hc : critical_keywords.any (fun k => containsSub k (pyLower item)) = true
  · rw [if_pos hc] at heq
    cases heq
    rfl
  · rw [if_neg hc] at heq
    exact absurd heq (by simp)

/-- Claim C2: if the input text contains no risk-level label
(`Nivel de Riesgo: ALTO|MEDIO|BAJO`) anywhere — formalised as: the risk
pattern matches no contiguous segment of the text — then every
non-conformity the parser extracts (on either path) carries the default
severity `high`. -/
theorem parser_default_severity_high (text : List Char)
    (H : ∀ l, SubSeg l text → riskSearch l = none) :
    ∀ nc ∈ no_conformidades text, nc.severity = "high" := by
  intro nc hmem
  rw [no_conformidades] at hmem
  have hmem' := List.mem_of_mem_take hmem
  by_cases hcase : (heading_non_conformities text).isEmpty = true ∧
      has_critical_keywords text = true
  · rw [if_pos hcase] at hmem'
    exact fallback_sev hmem'
  · rw [if_neg hcase] at hmem'
    rw [heading_non_conformities] at hmem'
    match hh : nonconf_heading_content text with
    | none => rw [hh] at hmem'; simp at hmem'
    | some content =>
      rw [hh] at hmem'
      have hsub : SubSeg content text := nonconf_content_subseg hh
      have Hwin : ∀ j, riskSearch (pyStrip ((splitNl content).getD j [])) = none := by
        intro j
        apply H
        exact subseg_trans (pyStrip_subseg _)
          (subseg_trans (getD_subseg (fun b hb => splitNl_subseg b hb) j) hsub)
      exact outer_loop_sev (splitNl content) Hwin _ 0 nc hmem'

/-! ### Lemmas connecting `riskSearch` to the literal `nivel` -/

theorem litCi_lower_pre : ∀ (p s r : List Char), litCi p s = some r →
    ∃ v, pyLower s = pyLower p ++ v := by
  intro p
  induction p with
  | nil => intro s r _; exact ⟨pyLower s, by simp [pyLower]⟩
  | cons x xs ih =>
    intro s r h
    match s with
    | [] => simp [litCi] at h
    | c :: cs =>
      rw [litCi] at h
      split at h
      · rename_i he
        obtain ⟨v, hv⟩ := ih cs r h
        refine ⟨v, ?_⟩
        simp only [pyLower, List.map_cons] at hv ⊢
        rw [he, hv]
        simp
      · exact absurd h (by simp)

theorem riskAt_nivel {s : List Char} {v : String} (h : riskAt s = some v) :
    ∃ w, pyLower s = "nivel".toList ++ w := by
  rw [riskAt] at h
  rcases Option.bind_eq_some.mp h with ⟨r0, h0, _⟩
  obtain ⟨w, hw⟩ := litCi_lower_pre _ _ _ h0
  exact ⟨w, by simpa using hw⟩

theorem riskSearch_nivel : ∀ {l : List Char} {v : String}, riskSearch l = some v →
    SubSeg "nivel".toList (pyLower l) := by
  intro l
  induction l with
  | nil => intro v h; simp [riskSearch] at h
  | cons c cs ih =>
    intro v h
    rw [riskSearch] at h
    match ha : riskAt (c :: cs) with
    | some v0 =>
      obtain ⟨w, hw⟩ := riskAt_nivel ha
      exact ⟨[], w, by simpa using hw⟩
    | none =>
      rw [ha] at h
      have h2 : SubSeg "nivel".toList (pyLower cs) := ih h
      show SubSeg "nivel".toList (pyLower (c :: cs))
      simpa [pyLower, List.map_cons] using subseg_cons (pyToLower c) h2

theorem isPrefixOf_iff_exists : ∀ (p s : List Char),
    p.isPrefixOf s = true ↔ ∃ v, s = p ++ v := by
  intro p
  induction p with
  | nil => intro s; simp [List.isPrefixOf]
  | cons x xs ih =>
    intro s
    match s with
    | [] => simp [List.isPrefixOf]
    | c :: cs =>
      simp only [List.isPrefixOf, Bool.and_eq_true, beq_iff_eq, ih cs]
      constructor
      · rintro ⟨rfl, v, rfl⟩; exact ⟨v, rfl⟩
      · rintro ⟨v, hv⟩
        injection hv with h1 h2
        exact ⟨h1.symm, v, h2⟩

theorem containsSub_iff (n : List Char) : ∀ h : List Char,
    containsSub n h = true ↔ SubSeg n h := by
  intro h
  induction h with
  | nil =>
    simp only [containsSub, List.isEmpty_iff, SubSeg]
    constructor
    · rintro rfl; exact ⟨[], [], rfl⟩
    · rintro ⟨u, v, huv⟩
      have h' := huv.symm
      simp only [List.append_eq_nil] at h'
      exact h'.1.2
  | cons c cs ih =>
    rw [containsSub]
    simp only [Bool.or_eq_true, isPrefixOf_iff_exists, ih]
    constructor
    · rintro (⟨v, hv⟩ | ⟨u, v, rfl⟩)
      · exact ⟨[], v, hv⟩
      · exact ⟨c :: u, v, rfl⟩
    · rintro ⟨u, v, huv⟩
      match u, huv with
      | [], huv => exact Or.inl ⟨v, huv⟩
      | x :: xs, huv =>
        injection huv with h1 h2
        exact Or.inr ⟨xs, v, h2⟩

/-- Witness for `parser_default_severity_high`: a response with a
non-conformity heading, one numbered finding of length ≥ 10 and no
risk-level label yields findings, all of severity `high`. -/
theorem parser_default_severity_high_witness :
    no_conformidades "## No Conformidades\n1. Conductor mal sujetado visible\n".toList ≠ [] ∧
    ∀ nc ∈ no_conformidades "## No Conformidades\n1. Conductor mal sujetado visible\n".toList,
      nc.severity = "high" := by
  refine ⟨by decide, parser_default_severity_high _ ?_⟩
  intro l hl
  match hr : riskSearch l with
  | none => rfl
  | some v =>
    have h1 := riskSearch_nivel hr
    have h2 := subseg_map pyToLower hl
    have h3 := subseg_trans h1 h2
    have h4 := (containsSub_iff _ _).mpr h3
    rw [show containsSub "nivel".toList
      (List.map pyToLower "## No Conformidades\n1. Conductor mal sujetado visible\n".toList) =
        false by decide] at h4
    exact absurd h4 (by simp)

/-- Claim C4: the `no_conformidades` list returned by the parser never has
more than 10 entries, on either extraction path. -/
theorem parser_cap_ten (text : List Char) : (no_conformidades text).length ≤ 10 := by
  rw [no_conformidades]
  simp [List.length_take]

/-- Claim C10: when heading-based extraction finds nothing (so any findings
come from the keyword fallback), every extracted description is at most 200
characters: the matched line is truncated with `[:200]`. -/
theorem fallback_description_truncated (text : List Char)
    (h : heading_non_conformities text = []) :
    ∀ nc ∈ no_conformidades text, nc.description.length ≤ 200 := by
  intro nc hmem
  rw [no_conformidades] at hmem
  have hmem' := List.mem_of_mem_take hmem
  rw [h] at hmem'
  by_cases hc : has_critical_keywords text = true
  · rw [if_pos (by simp [hc])] at hmem'
    rw [fallback_non_conformities] at hmem'
    rcases List.mem_filterMap.mp hmem' with ⟨item, _, heq⟩
    by_cases hk : critical_keywords.any (fun k => containsSub k (pyLower item)) = true
    · rw [if_pos hk] at heq
      cases heq
      simp only []
      exact List.length_take_le 200 (pyStrip item)
    · rw [if_neg hk] at heq
      exact absurd heq (by simp)
  · rw [if_neg (by simp [hc])] at hmem'
    simp at hmem'

/-- Witness for `fallback_description_truncated`: a headingless critical
text takes the fallback path; the produced findings are non-empty and all
of description length ≤ 200. -/
theorem fallback_description_truncated_witness :
    heading_non_conformities "1. Cable con riesgo de corto\n".toList = [] ∧
    no_conformidades "1. Cable con riesgo de corto\n".toList ≠ [] ∧
    ∀ nc ∈ no_conformidades "1. Cable con riesgo de corto\n".toList,
      nc.description.length ≤ 200 := by
  refine ⟨by decide, by decide, fallback_description_truncated _ (by decide)⟩

/-- Claim C3: `classify_severity` rewrites every finding's severity —
`high` on a high-severity keyword in the description, else `medium` when
the article field is truthy, else `low` — keeping description and article;
and `parse_vision_response` installs this re-classified list, replacing the
parser-assigned severities (last-writer-wins), so the two stages can
disagree. -/
theorem classify_severity_rule (text : List Char) (ncs : List NC) :
    parse_vision_non_conformities text = classify_severity (no_conformidades text) ∧
    classify_severity ncs = ncs.map (fun nc =>
      { nc with severity :=
          if high_severity_keywords.any (fun k => containsSub k (pyLower nc.description)) then
            "high"
          else if articleTruthy nc.article then "medium" else "low" }) := by
  constructor
  · rw [parse_vision_non_conformities]
    by_cases h : (no_conformidades text).isEmpty = true
    · rw [if_pos h]
      rw [List.isEmpty_iff.mp h]
      rfl
    · rw [if_neg h]
  · induction ncs with
    | nil => rfl
    | cons nc rest ih =>
      rw [classify_severity, List.map_cons, ih]
      congr 1
      rw [show (match nc.article with | some a => !a.isEmpty | none => false) =
        articleTruthy nc.article from rfl]
      by_cases h1 : (high_severity_keywords.any fun k =>
          containsSub k (pyLower nc.description)) = true
      · simp [h1]
      · by_cases h2 : articleTruthy nc.article = true
        · simp [h1, h2]
        · simp [h1, h2]

/-! ### Vector store: `add_documents` lemmas -/

theorem add_chunks_mem_mono (n f : String) (t : Nat) :
    ∀ (L : List (String × List ℝ)) (st : Store) (i : Nat) (x : String),
      x ∈ st.ids → x ∈ (add_chunks n f t st i L).ids := by
  intro L
  induction L with
  | nil => intro st i x hx; exact hx
  | cons p rest ih =>
    obtain ⟨pc, pe⟩ := p
    intro st i x hx
    rw [add_chunks]
    apply ih
    dsimp only
    split
    · exact hx
    · exact List.mem_append_left _ hx

theorem add_chunks_has (n f : String) (t : Nat) :
    ∀ (L : List (String × List ℝ)) (st : Store) (i k : Nat), k < L.length →
      chunk_id n (i + k) ∈ (add_chunks n f t st i L).ids := by
  intro L
  induction L with
  | nil => intro st i k hk; simp at hk
  | cons p rest ih =>
    obtain ⟨pc, pe⟩ := p
    intro st i k hk
    rw [add_chunks]
    match k with
    | 0 =>
      rw [Nat.add_zero]
      apply add_chunks_mem_mono
      dsimp only
      split
      · assumption
      · exact List.mem_append_right _ (by simp)
    | k + 1 =>
      rw [show i + (k + 1) = (i + 1) + k by omega]
      exact ih _ (i + 1) k (by simpa using Nat.lt_of_succ_lt_succ hk)

theorem add_chunks_noop (n f : String) (t : Nat) :
    ∀ (L : List (String × List ℝ)) (st : Store) (i : Nat),
      (∀ k, k < L.length → chunk_id n (i + k) ∈ st.ids) →
      add_chunks n f t st i L = st := by
  intro L
  induction L with
  | nil => intro st i _; rfl
  | cons p rest ih =>
    obtain ⟨pc, pe⟩ := p
    intro st i h
    rw [add_chunks]
    have h0 : chunk_id n i ∈ st.ids := by simpa using h 0 (by simp)
    rw [if_pos h0]
    apply ih
    intro k hk
    rw [show (i + 1) + k = i + (k + 1) by omega]
    exact h (k + 1) (by simpa using Nat.succ_lt_succ hk)

theorem add_doc_mem_mono {st : Store} {d : Doc} {x : String} (hx : x ∈ st.ids) :
    x ∈ (add_doc st d).ids := by
  rw [add_doc]
  split
  · exact hx
  · exact add_chunks_mem_mono _ _ _ _ st 0 x hx

theorem add_doc_has {st : Store} {d : Doc} (he : d.embeddings.isEmpty = false) :
    ∀ k, k < (d.chunks.zip d.embeddings).length →
      chunk_id d.norm_id k ∈ (add_doc st d).ids := by
  intro k hk
  rw [add_doc, if_neg (by simp [he])]
  simpa using add_chunks_has d.norm_id d.filename d.chunks.length _ st 0 k hk

theorem add_doc_noop {st : Store} {d : Doc}
    (h : d.embeddings.isEmpty = false →
      ∀ k, k < (d.chunks.zip d.embeddings).length → chunk_id d.norm_id k ∈ st.ids) :
    add_doc st d = st := by
  rw [add_doc]
  split
  · rfl
  · rename_i he
    apply add_chunks_noop
    intro k hk
    simpa using h (by simpa using he) k hk

theorem add_documents_mem_mono :
    ∀ (docs : List Doc) (st : Store) (x : String),
      x ∈ st.ids → x ∈ (add_documents st docs).ids := by
  intro docs
  induction docs with
  | nil => intro st x hx; exact hx
  | cons d ds ih =>
    intro st x hx
    rw [add_documents, List.foldl_cons]
    exact ih (add_doc st d) x (add_doc_mem_mono hx)

theorem add_documents_has :
    ∀ (docs : List Doc) (st : Store) (d : Doc), d ∈ docs →
      d.embeddings.isEmpty = false →
      ∀ k, k < (d.chunks.zip d.embeddings).length →
        chunk_id d.norm_id k ∈ (add_documents st docs).ids := by
  intro docs
  induction docs with
  | nil => intro st d hd; simp at hd
  | cons d0 ds ih =>
    intro st d hd he k hk
    rw [add_documents, List.foldl_cons]
    rcases List.mem_cons.mp hd with rfl | hd
    · exact add_documents_mem_mono ds (add_doc st d) _ (add_doc_has he k hk)
    · exact ih (add_doc st d0) d hd he k hk

theorem add_documents_noop :
    ∀ (docs : List Doc) (st : Store),
      (∀ d ∈ docs, d.embeddings.isEmpty = false →
        ∀ k, k < (d.chunks.zip d.embeddings).length → chunk_id d.norm_id k ∈ st.ids) →
      add_documents st docs = st := by
  intro docs
  induction docs with
  | nil => intro st _; rfl
  | cons d0 ds ih =>
    intro st h
    rw [add_documents, List.foldl_cons]
    have h0 : add_doc st d0 = st :=
      add_doc_noop (fun he k hk => h d0 (by simp) he k hk)
    rw [h0]
    exact ih st (fun d hd => h d (List.mem_cons_of_mem d0 hd))

theorem nodup_snoc {l : List String} {a : String} (h : l.Nodup) (ha : a ∉ l) :
    (l ++ [a]).Nodup := by
  simp [List.nodup_append, h, ha]

theorem add_chunks_nodup (n f : String) (t : Nat) :
    ∀ (L : List (String × List ℝ)) (st : Store) (i : Nat),
      st.ids.Nodup → (add_chunks n f t st i L).ids.Nodup := by
  intro L
  induction L with
  | nil => intro st i h; exact h
  | cons p rest ih =>
    obtain ⟨pc, pe⟩ := p
    intro st i h
    rw [add_chunks]
    apply ih
    dsimp only
    split
    · exact h
    · rename_i hni
      exact nodup_snoc h hni

theorem add_doc_nodup {st : Store} {d : Doc} (h : st.ids.Nodup) :
    (add_doc st d).ids.Nodup := by
  rw [add_doc]
  split
  · exact h
  · exact add_chunks_nodup _ _ _ _ st 0 h

theorem add_documents_nodup :
    ∀ (docs : List Doc) (st : Store), st.ids.Nodup → (add_documents st docs).ids.Nodup := by
  intro docs
  induction docs with
  | nil => intro st h; exact h
  | cons d ds ih =>
    intro st h
    rw [add_documents, List.foldl_cons]
    exact ih (add_doc st d) (add_doc_nodup h)

/-- Claim C7: `add_documents` is idempotent at the id level — adding the
same documents a second time is a no-op (every generated chunk id
`{norm_id}_chunk_{i}` already exists, so every chunk is skipped and the
whole store, in particular `count()`, is unchanged) — and the stored ids
stay unique. -/
theorem add_documents_idempotent (st : Store) (docs : List Doc) :
    add_documents (add_documents st docs) docs = add_documents st docs ∧
    (st.ids.Nodup → (add_documents st docs).ids.Nodup) := by
  constructor
  · exact add_documents_noop docs (add_documents st docs)
      (fun d hd he k hk => add_documents_has docs st d hd he k hk)
  · exact fun h => add_documents_nodup docs st h

/-- Witness for `add_documents_idempotent`: one concrete document added to
the empty store. -/
theorem add_documents_idempotent_witness :
    add_documents
        (add_documents ⟨[], [], [], []⟩ [⟨"NOM-250", "f.pdf", ["tierra"], [[1]]⟩])
        [⟨"NOM-250", "f.pdf", ["tierra"], [[1]]⟩] =
      add_documents ⟨[], [], [], []⟩ [⟨"NOM-250", "f.pdf", ["tierra"], [[1]]⟩] ∧
    (add_documents ⟨[], [], [], []⟩ [⟨"NOM-250", "f.pdf", ["tierra"], [[1]]⟩]).ids.Nodup :=
  ⟨(add_documents_idempotent _ _).1, (add_documents_idempotent _ _).2 (by simp)⟩

/-! ### Vector store: `search` lemmas -/

theorem simGe_trans : ∀ a b c : Nat × ℝ, simGe a b → simGe b c → simGe a c := by
  intro a b c h1 h2
  simp only [simGe, decide_eq_true_eq] at h1 h2 ⊢
  exact le_trans h2 h1

theorem simGe_total : ∀ a b : Nat × ℝ, simGe a b || simGe b a := by
  intro a b
  simp only [simGe, Bool.or_eq_true, decide_eq_true_eq]
  exact le_total b.2 a.2

theorem search_inner_ok_char {st : Store} {qe : List ℝ} {n : Nat}
    {filt : Option String} {l : List SearchResult}
    (h : search_inner st qe n filt = .ok l) :
    l.length ≤ n ∧ l.Pairwise (fun a b => a.distance ≤ b.distance) ∧
    ∀ r ∈ l, ∃ i ∈ filtered_indices st filt, r = mkResult st (i, simAt st qe i) := by
  rw [search_inner] at h
  split at h
  · dsimp only at h
    split at h
    · cases h
      exact ⟨by simp, by simp, by simp⟩
    · cases h
      refine ⟨by simp [List.length_take], ?_, ?_⟩
      · have hs := @List.sorted_mergeSort _ simGe simGe_trans simGe_total
          ((filtered_indices st filt).map (fun i => (i, simAt st qe i)))
        have ht := List.Pairwise.sublist (List.take_sublist n _) hs
        rw [List.pairwise_map]
        refine ht.imp ?_
        intro a b hab
        simp only [simGe, decide_eq_true_eq] at hab
        show 1 - a.2 ≤ 1 - b.2
        linarith
      · intro r hr
        rcases List.mem_map.mp hr with ⟨p, hp, rfl⟩
        have hp2 := List.mem_of_mem_take hp
        rw [List.mem_mergeSort] at hp2
        rcases List.mem_map.mp hp2 with ⟨i, hi, rfl⟩
        exact ⟨i, hi, rfl⟩
  · exact absurd h (by simp)

/-- Claim C1: `search` returns at most `n_results` entries; they are
ordered by descending cosine similarity — equivalently, ascending
`distance` — and every returned entry is an indexed entry whose `distance`
equals `1 − cosineSim(stored vector, query)`, where `cosineSim` is the dot
product over the product of the Euclidean norms plus the `1e-9` epsilon. -/
theorem search_ranking (st : Store) (qe : List ℝ) (n : Nat) (filt : Option String) :
    (search st qe n filt).length ≤ n ∧
    (search st qe n filt).Pairwise (fun a b => a.distance ≤ b.distance) ∧
    ∀ r ∈ search st qe n filt, ∃ i ∈ filtered_indices st filt,
      r.distance = 1 - cosineSim (st.embeddings.getD i []) qe ∧
      r.id = st.ids.getD i "" ∧ r.content = st.documents.getD i "" ∧
      r.metadata = st.metadatas.getD i default := by
  rw [search]
  split
  · exact ⟨by simp, by simp, by simp⟩
  · cases hinner : search_inner st qe n filt with
    | ok l =>
      obtain ⟨h1, h2, h3⟩ := search_inner_ok_char hinner
      refine ⟨h1, h2, ?_⟩
      intro r hr
      obtain ⟨i, hi, rfl⟩ := h3 r hr
      exact ⟨i, hi, rfl, rfl, rfl, rfl⟩
    | error e => exact ⟨by simp, by simp, by simp⟩

/-- Witness for `search_ranking` at a concrete two-entry store. -/
theorem search_ranking_witness :
    (search ⟨["a_chunk_0", "b_chunk_0"], [[1], [0]], ["ta", "tb"],
        [⟨"NOM-250", "a.pdf", 0, 1⟩, ⟨"NOM-408", "b.pdf", 0, 1⟩]⟩
      [1] 2 none).length ≤ 2 :=
  (search_ranking ⟨["a_chunk_0", "b_chunk_0"], [[1], [0]], ["ta", "tb"],
      [⟨"NOM-250", "a.pdf", 0, 1⟩, ⟨"NOM-408", "b.pdf", 0, 1⟩]⟩ [1] 2 none).1

/-- Claim C8: with a (non-empty, hence truthy) `norm_filter`, every entry
`search` returns carries that `norm_id` in its metadata, and a filter
matching no stored entry produces the empty list, not an error. -/
theorem search_filter_semantics (st : Store) (qe : List ℝ) (n : Nat)
    (f : String) (hf : f.isEmpty = false) :
    (∀ r ∈ search st qe n (some f), r.metadata.norm_id = f) ∧
    (filtered_indices st (some f) = [] → search st qe n (some f) = []) := by
  constructor
  · intro r hr
    rw [search] at hr
    split at hr
    · simp at hr
    · cases hinner : search_inner st qe n (some f) with
      | ok l =>
        rw [hinner] at hr
        obtain ⟨i, hi, rfl⟩ := (search_inner_ok_char hinner).2.2 r hr
        rw [filtered_indices] at hi
        rw [if_neg (by simp [hf])] at hi
        have := (List.mem_filter.mp hi).2
        simpa [mkResult] using this
      | error e =>
        rw [hinner] at hr
        simp at hr
  · intro hemp
    rw [search]
    split
    · rfl
    · have hinner : search_inner st qe n (some f) = .ok [] ∨
          search_inner st qe n (some f) = .error () := by
        rw [search_inner]
        by_cases hd : dims_ok st qe = true
        · rw [if_pos hd]
          left
          simp [hemp]
        · rw [if_neg hd]
          right
          rfl
      rcases hinner with h | h <;> rw [h]

/-- Witness for `search_filter_semantics`: a store holding entries for
norms `NOM-250` and `NOM-408`, searched with the unmatched filter
`NOM-999`, returns the empty list. -/
theorem search_filter_semantics_witness :
    search ⟨["a_chunk_0", "b_chunk_0"], [[1], [0]], ["ta", "tb"],
        [⟨"NOM-250", "a.pdf", 0, 1⟩, ⟨"NOM-408", "b.pdf", 0, 1⟩]⟩
      [1] 2 (some "NOM-999") = [] :=
  (search_filter_semantics _ _ _ _ (by decide)).2 (by decide)

theorem search_error_helper :
    search_inner (⟨["n_chunk_0"], [[(1 : ℝ), 0]], ["doc"], [⟨"n", "f", 0, 1⟩]⟩ : Store)
      [1, 0, 0] 3 none = .error () := by
  have h : dims_ok (⟨["n_chunk_0"], [[(1 : ℝ), 0]], ["doc"], [⟨"n", "f", 0, 1⟩]⟩ : Store)
      [1, 0, 0] = false := by decide
  rw [search_inner, h]
  simp

/-- Claim C9 (counterexample): a stored 2-dimensional vector against a
3-dimensional query embedding makes the similarity computation fail, but
the failure does **not** propagate: `search`'s `except Exception` handler
swallows it and returns `[]`. -/
theorem search_error_swallowed :
    search_inner (⟨["n_chunk_0"], [[(1 : ℝ), 0]], ["doc"], [⟨"n", "f", 0, 1⟩]⟩ : Store)
        [1, 0, 0] 3 none = .error () ∧
    search (⟨["n_chunk_0"], [[(1 : ℝ), 0]], ["doc"], [⟨"n", "f", 0, 1⟩]⟩ : Store)
        [1, 0, 0] 3 none = [] := by
  refine ⟨search_error_helper, ?_⟩
  rw [search]
  rw [if_neg (by decide)]
  rw [search_error_helper]

/-- Claim C9, amended: when the similarity computation inside `search`
fails (e.g. mismatched vector dimensions), the error is caught by the
`try/except` and `search` returns the empty list instead of propagating. -/
theorem search_catches_error (st : Store) (qe : List ℝ) (n : Nat)
    (filt : Option String) (h : search_inner st qe n filt = .error ()) :
    search st qe n filt = [] := by
  rw [search]
  split
  · rfl
  · rw [h]

/-- Witness for `search_catches_error` at the dimension-mismatch store. -/
theorem search_catches_error_witness :
    search (⟨["n_chunk_0"], [[(1 : ℝ), 0]], ["doc"], [⟨"n", "f", 0, 1⟩]⟩ : Store)
      [1, 0, 0] 3 none = [] :=
  search_catches_error _ _ _ _ search_error_helper

/-! ### Embeddings generator lemmas -/

theorem fill_scan_eq (embedFn : String → List ℝ) (c : Cache) (norm : String) :
    ∀ (ts : List String) (j : Nat),
      fill_embeddings embedFn (scan_batch c norm j ts).1 (scan_batch c norm j ts).2 =
        cache_or_fresh embedFn c norm j ts := by
  intro ts
  induction ts with
  | nil => intro j; rfl
  | cons t ts ih =>
    intro j
    rw [scan_batch, cache_or_fresh]
    match hh : cache_hit c t norm j with
    | some v =>
      simp only [hh]
      rw [fill_embeddings, ih]
    | none =>
      simp only [hh]
      rw [fill_embeddings, ih]

theorem scan_batch_idx_lt (c : Cache) (norm : String) :
    ∀ (ts : List String) (j : Nat), ∀ p ∈ (scan_batch c norm j ts).2,
      j ≤ p.1 ∧ p.1 < j + ts.length := by
  intro ts
  induction ts with
  | nil => intro j p hp; simp [scan_batch] at hp
  | cons t ts ih =>
    intro j p hp
    rw [scan_batch] at hp
    match hh : cache_hit c t norm j with
    | some v =>
      rw [hh] at hp
      have := ih (j + 1) p hp
      constructor <;> [omega; (simp only [List.length_cons]; omega)]
    | none =>
      rw [hh] at hp
      rcases List.mem_cons.mp hp with rfl | hp
      · exact ⟨le_rfl, by simp⟩
      · have := ih (j + 1) p hp
        constructor <;> [omega; (simp only [List.length_cons]; omega)]

theorem cache_get_set_ne {c : Cache} {t t' norm : String} {i i' : Nat} {v : List ℝ}
    (h : i ≠ i') :
    cache_get (cache_set c t norm i v) t' norm i' = cache_get c t' norm i' := by
  rw [cache_set, cache_get, cache_get]
  rw [List.find?_cons_of_neg]
  simp [cache_key, h]

theorem cache_hit_congr {c c' : Cache} {t norm : String} {i : Nat}
    (h : cache_get c t norm i = cache_get c' t norm i) :
    cache_hit c t norm i = cache_hit c' t norm i := by
  rw [cache_hit, cache_hit, h]

theorem cache_after_hit_agree (embedFn : String → List ℝ) (norm : String) :
    ∀ (te : List (Nat × String)) (c : Cache) (t : String) (idx : Nat),
      (∀ p ∈ te, p.1 ≠ idx) →
      cache_hit (cache_after embedFn c norm te) t norm idx = cache_hit c t norm idx := by
  intro te
  induction te with
  | nil => intro c t idx _; rfl
  | cons p te ih =>
    intro c t idx h
    rw [cache_after, List.foldl_cons]
    have h1 := ih (cache_set c p.2 norm p.1 (embedFn p.2)) t idx
      (fun q hq => h q (List.mem_cons_of_mem p hq))
    rw [show List.foldl (fun acc q => cache_set acc q.2 norm q.1 (embedFn q.2))
      (cache_set c p.2 norm p.1 (embedFn p.2)) te =
      cache_after embedFn (cache_set c p.2 norm p.1 (embedFn p.2)) norm te from rfl]
    rw [h1]
    exact cache_hit_congr (cache_get_set_ne (h p (by simp)))

theorem scan_batch_agree (c c' : Cache) (norm : String) :
    ∀ (ts : List String) (j : Nat),
      (∀ t idx, j ≤ idx → cache_hit c' t norm idx = cache_hit c t norm idx) →
      scan_batch c' norm j ts = scan_batch c norm j ts := by
  intro ts
  induction ts with
  | nil => intro j _; rfl
  | cons t ts ih =>
    intro j h
    rw [scan_batch, scan_batch]
    rw [h t j le_rfl]
    rw [ih (j + 1) (fun t' idx hidx => h t' idx (by omega))]

theorem cache_or_fresh_split (embedFn : String → List ℝ) (c : Cache) (norm : String) :
    ∀ (k : Nat) (l : List String) (j : Nat),
      cache_or_fresh embedFn c norm j l =
        cache_or_fresh embedFn c norm j (l.take k) ++
          cache_or_fresh embedFn c norm (j + k) (l.drop k) := by
  intro k
  induction k with
  | zero => intro l j; simp [cache_or_fresh]
  | succ k ih =>
    intro l j
    match l with
    | [] => simp [cache_or_fresh]
    | t :: ts =>
      rw [List.take_succ_cons, List.drop_succ_cons]
      rw [cache_or_fresh, cache_or_fresh]
      rw [ih ts (j + 1)]
      rw [show j + (k + 1) = (j + 1) + k by omega]
      simp

theorem batches_loop_spec (embedFn : String → List ℝ) (norm : String)
    (chunks : List String) (c : Cache) :
    ∀ (fuel i : Nat) (c' : Cache),
      chunks.length - i < fuel →
      (∀ t idx, i ≤ idx → cache_hit c' t norm idx = cache_hit c t norm idx) →
      (batches_loop embedFn norm chunks fuel c' i).1 =
        cache_or_fresh embedFn c norm i (chunks.drop i) := by
  intro fuel
  induction fuel with
  | zero => intro i c' hf _; omega
  | succ f ih =>
    intro i c' hf hag
    rw [batches_loop]
    by_cases hi : chunks.length ≤ i
    · rw [if_pos hi, List.drop_eq_nil_of_le hi]
      rfl
    · rw [if_neg hi]
      dsimp only
      have hscan : scan_batch c' norm i ((chunks.drop i).take 100) =
          scan_batch c norm i ((chunks.drop i).take 100) :=
        scan_batch_agree c c' norm _ i hag
      have hpb1 : (process_batch embedFn c' norm i ((chunks.drop i).take 100)).1 =
          cache_or_fresh embedFn c norm i ((chunks.drop i).take 100) := by
        rw [process_batch]
        dsimp only
        rw [hscan]
        exact fill_scan_eq embedFn c norm _ i
      have hag' : ∀ t idx, i + 100 ≤ idx →
          cache_hit (process_batch embedFn c' norm i ((chunks.drop i).take 100)).2
            t norm idx = cache_hit c t norm idx := by
        intro t idx hidx
        rw [process_batch]
        dsimp only
        have hne : ∀ p ∈ (scan_batch c' norm i ((chunks.drop i).take 100)).2,
            p.1 ≠ idx := by
          intro p hp
          rw [hscan] at hp
          have hb := scan_batch_idx_lt c norm _ i p hp
          have hlen : ((chunks.drop i).take 100).length ≤ 100 :=
            List.length_take_le 100 (chunks.drop i)
          omega
        rw [cache_after_hit_agree embedFn norm _ c' t idx hne]
        exact hag t idx (by omega)
      have hrec := ih (i + 100) _ (by omega) hag'
      rw [hpb1, hrec]
      rw [show chunks.drop (i + 100) = (chunks.drop i).drop 100 by
        rw [List.drop_drop]]
      exact (cache_or_fresh_split embedFn c norm 100 (chunks.drop i) i).symm

theorem cache_or_fresh_length (embedFn : String → List ℝ) (c : Cache) (norm : String) :
    ∀ (ts : List String) (j : Nat),
      (cache_or_fresh embedFn c norm j ts).length = ts.length := by
  intro ts
  induction ts with
  | nil => intro j; rfl
  | cons t ts ih =>
    intro j
    rw [cache_or_fresh, List.length_cons, List.length_cons, ih]

theorem cache_or_fresh_getD (embedFn : String → List ℝ) (c : Cache) (norm : String) :
    ∀ (ts : List String) (j i : Nat), i < ts.length →
      (cache_or_fresh embedFn c norm j ts).getD i [] =
        (match cache_hit c (ts.getD i "") norm (j + i) with
         | some v => v
         | none => embedFn (ts.getD i "")) := by
  intro ts
  induction ts with
  | nil => intro j i hi; simp at hi
  | cons t ts ih =>
    intro j i hi
    match i with
    | 0 => rw [cache_or_fresh]; rfl
    | i + 1 =>
      rw [cache_or_fresh]
      rw [List.getD_cons_succ, List.getD_cons_succ]
      rw [ih (j + 1) i (by simpa using Nat.lt_of_succ_lt_succ hi)]
      rw [show j + (i + 1) = (j + 1) + i by omega]

/-- Claim C5: `generate_document_embeddings` (per document, external
service modelled as the stub `embedFn`) yields exactly one vector per
chunk, and the vector at position `i` belongs to the chunk at position `i`:
the cached vector on a cache hit, the freshly computed one on a miss —
cache hits and fresh computations are interleaved back into their original
positions. -/
theorem generate_doc_embeddings_order (embedFn : String → List ℝ) (c : Cache)
    (norm : String) (chunks : List String) :
    (generate_doc_embeddings embedFn c norm chunks).1.length = chunks.length ∧
    ∀ i, i < chunks.length →
      (generate_doc_embeddings embedFn c norm chunks).1.getD i [] =
        (match cache_hit c (chunks.getD i "") norm i with
         | some v => v
         | none => embedFn (chunks.getD i "")) := by
  have hmain : (generate_doc_embeddings embedFn c norm chunks).1 =
      cache_or_fresh embedFn c norm 0 chunks := by
    rw [generate_doc_embeddings]
    have h := batches_loop_spec embedFn norm chunks c (chunks.length + 1) 0 c
      (by omega) (fun t idx _ => rfl)
    simpa using h
  constructor
  · rw [hmain]
    exact cache_or_fresh_length embedFn c norm chunks 0
  · intro i hi
    rw [hmain]
    have h := cache_or_fresh_getD embedFn c norm chunks 0 i hi
    simpa using h

/-- Witness for `generate_doc_embeddings_order`: two chunks against a cache
holding a vector only for chunk 0; position 0 receives the cached `[5]`
(not the stub's `[9]`), position 1 the freshly computed `[2]`. -/
theorem generate_doc_embeddings_order_witness :
    (generate_doc_embeddings (fun t => if t = "a" then [(9 : ℝ)] else [(2 : ℝ)])
        [(("N", 0, "a"), [(5 : ℝ)])] "N" ["a", "bb"]).1.length = 2 ∧
    (generate_doc_embeddings (fun t => if t = "a" then [(9 : ℝ)] else [(2 : ℝ)])
        [(("N", 0, "a"), [(5 : ℝ)])] "N" ["a", "bb"]).1.getD 0 [] = [(5 : ℝ)] ∧
    (generate_doc_embeddings (fun t => if t = "a" then [(9 : ℝ)] else [(2 : ℝ)])
        [(("N", 0, "a"), [(5 : ℝ)])] "N" ["a", "bb"]).1.getD 1 [] = [(2 : ℝ)] := by
  obtain ⟨h1, h2⟩ := generate_doc_embeddings_order
    (fun t => if t = "a" then [(9 : ℝ)] else [(2 : ℝ)])
    [(("N", 0, "a"), [(5 : ℝ)])] "N" ["a", "bb"]
  refine ⟨h1, ?_, ?_⟩
  · rw [h2 0 (by decide)]
    rfl
  · rw [h2 1 (by decide)]
    rfl

end Insp
